import Mathlib

/-!
Verification of the data reconciliation and aggregation core of the
pandas/streamlit weight tracker in src/app.py.

Modelling conventions (shallow embedding):
* a calendar date is an integer day number; `date.today()` becomes an
  explicit `today : ℤ` parameter;
* a numeric cell is an exact rational; Python `round(x, 1)` (round half to
  even, one fractional digit) is `round1`;
* a DataFrame is a `List` of row structures in row order; `sort_values` is
  modelled as a stable sort (`List.insertionSort`), `drop_duplicates(...,
  keep="last")` as `dedupLast`, a failed `pd.to_datetime`/`pd.to_numeric`
  coercion (NaT/NaN) as `none`, and a file `pd.read_csv` cannot read as a
  `none` table.
-/

namespace WeightApp

/-- Python `round` to an integer: round half to even (banker's rounding). -/
def pyRound (q : ℚ) : ℤ :=
  if q - Rat.floor q < 1/2 then Rat.floor q
  else if 1/2 < q - Rat.floor q then Rat.floor q + 1
  else if Rat.floor q % 2 = 0 then Rat.floor q else Rat.floor q + 1

/-- Python `round(x, 1)`: round to one fractional decimal digit. -/
def round1 (q : ℚ) : ℚ := (pyRound (q * 10) : ℚ) / 10

theorem ratFloor_intCast (n : ℤ) : Rat.floor (n : ℚ) = n := by
  have h : Rat.floor (n : ℚ) = ⌊(n : ℚ)⌋ := rfl
  rw [h, Int.floor_intCast]

theorem pyRound_intCast (n : ℤ) : pyRound (n : ℚ) = n := by
  unfold pyRound
  rw [ratFloor_intCast, sub_self]
  norm_num

theorem round1_round1 (q : ℚ) : round1 (round1 q) = round1 q := by
  unfold round1
  rw [div_mul_cancel₀ _ (by norm_num : (10 : ℚ) ≠ 0), pyRound_intCast]

/-- One row of the weights table: key `date`, value `weight`. -/
structure WRow where
  date : ℤ
  weight : ℚ
deriving DecidableEq, Repr

/-- Row order used by `sort_values("date")`. -/
def wle (a b : WRow) : Prop := a.date ≤ b.date

instance : DecidableRel wle := fun a b => inferInstanceAs (Decidable (a.date ≤ b.date))

instance : IsTotal WRow wle := ⟨fun a b => le_total a.date b.date⟩

instance : IsTrans WRow wle := ⟨fun _ _ _ h h2 => le_trans h h2⟩

/-- pandas `sort_values("date")`, modelled as a stable sort.  pandas'
default single-column sort (`kind="quicksort"`) does not guarantee the
order of equal dates; the stable model is therefore used only in
statements that are independent of that tie order (collections with
unique dates, or rows selected per single date). -/
def sortByDate (l : List WRow) : List WRow := l.insertionSort wle

/-- pandas `drop_duplicates(subset=key, keep="last")`: keep, in row order,
each row whose key does not occur again later in the list. -/
def dedupLast {α κ : Type} [DecidableEq κ] (key : α → κ) : List α → List α
  | [] => []
  | a :: l =>
      if l.any (fun b => key b = key a) then dedupLast key l
      else a :: dedupLast key l

/-- Rounding applied to a weight row on load and on save
(`df["weight"] = pd.to_numeric(df["weight"], errors="coerce").round(1)`). -/
def roundW (r : WRow) : WRow := ⟨r.date, round1 r.weight⟩

/-- A raw cell row of the weights CSV: `none` models a cell that
`pd.to_datetime` / `pd.to_numeric` fails to coerce (NaT / NaN). -/
structure RawWRow where
  date : Option ℤ
  weight : Option ℚ
deriving DecidableEq, Repr

/-- A parsed weights CSV file: header columns and rows. -/
structure RawWTable where
  cols : List String
  rows : List RawWRow
deriving DecidableEq, Repr

/-- Type coercion of raw weight rows: dates to dates, weights to numbers
rounded to 1 decimal, then `dropna` removes rows where either failed. -/
def coerceW (rows : List RawWRow) : List WRow :=
  rows.filterMap fun r =>
    match r.date, r.weight with
    | some d, some w => some ⟨d, round1 w⟩
    | _, _ => none

/-- The cleaning pipeline `load_weights` applies to a parsed file
(src/app.py lines 58-67): coerce and round, drop broken rows, sort
ascending by date, deduplicate by date keeping the last occurrence. -/
def normW (rows : List RawWRow) : List WRow :=
  dedupLast (·.date) (sortByDate (coerceW rows))

/-- `load_weights()` (src/app.py lines 48-71).  A `none` file models a
read/parse failure of `pd.read_csv`; a table missing a required column
degrades to the empty collection. -/
def load_weights (file : Option RawWTable) : List WRow :=
  match file with
  | none => []
  | some t =>
      if "date" ∈ t.cols ∧ "weight" ∈ t.cols then normW t.rows
      else []

/-- `save_weights` (src/app.py lines 74-83): round weights to 1 decimal,
sort ascending by date, write every row with its header.  Serialisation is
exact in the model (ISO date and 1-decimal weight re-parse to themselves). -/
def save_weights (df : List WRow) : RawWTable :=
  ⟨["date", "weight"],
   (sortByDate (df.map roundW)).map fun r => ⟨some r.date, some r.weight⟩⟩

/-- The load-time cleaning pipeline applied directly to an in-memory
collection (the spec's `normalize` for weights). -/
def normalizeW (df : List WRow) : List WRow :=
  normW (df.map fun r => ⟨some r.date, some r.weight⟩)

/-- One row of the exercises table: key `(date, activity)`. -/
structure ERow where
  date : ℤ
  activity : String
  duration : ℚ
deriving DecidableEq, Repr

/-- Row order used by `sort_values(["date", "activity"])`. -/
def ele (a b : ERow) : Prop :=
  a.date < b.date ∨ (a.date = b.date ∧ a.activity ≤ b.activity)

instance : DecidableRel ele := fun _ _ =>
  inferInstanceAs (Decidable (_ ∨ _))

instance : IsTotal ERow ele := by
  constructor
  intro a b
  rcases lt_trichotomy a.date b.date with h | h | h
  · exact Or.inl (Or.inl h)
  · rcases le_total a.activity b.activity with h2 | h2
    · exact Or.inl (Or.inr ⟨h, h2⟩)
    · exact Or.inr (Or.inr ⟨h.symm, h2⟩)
  · exact Or.inr (Or.inl h)

instance : IsTrans ERow ele := by
  constructor
  intro a b c hab hbc
  rcases hab with h1 | ⟨e1, s1⟩
  · rcases hbc with h2 | ⟨e2, s2⟩
    · exact Or.inl (h1.trans h2)
    · exact Or.inl (e2 ▸ h1)
  · rcases hbc with h2 | ⟨e2, s2⟩
    · exact Or.inl (e1 ▸ h2)
    · exact Or.inr ⟨e1.trans e2, s1.trans s2⟩

/-- pandas `sort_values(["date", "activity"])`, modelled as a stable sort. -/
def sortByKeyE (l : List ERow) : List ERow := l.insertionSort ele

/-- Whole-minute rounding applied to an exercise row on load and on save
(`pd.to_numeric(...).round(0).astype(...)`). -/
def roundE (r : ERow) : ERow := ⟨r.date, r.activity, (pyRound r.duration : ℚ)⟩

/-- The duration range filter of `load_exercises`:
`(0 <= df["duration_min"]) & (df["duration_min"] <= 1440)`. -/
def inRangeE (r : ERow) : Prop := 0 ≤ r.duration ∧ r.duration ≤ 1440

instance (r : ERow) : Decidable (inRangeE r) :=
  inferInstanceAs (Decidable (_ ∧ _))

/-- A raw cell row of the exercises CSV.  `activity` is always a string
because the source applies `.astype(str)` before `dropna`. -/
structure RawERow where
  date : Option ℤ
  activity : String
  duration : Option ℚ
deriving DecidableEq, Repr

/-- A parsed exercises CSV file: header columns and rows. -/
structure RawETable where
  cols : List String
  rows : List RawERow
deriving DecidableEq, Repr

/-- Type coercion of raw exercise rows: dates to dates, durations rounded
to whole minutes, then `dropna` removes rows where either failed. -/
def coerceE (rows : List RawERow) : List ERow :=
  rows.filterMap fun r =>
    match r.date, r.duration with
    | some d, some m => some ⟨d, r.activity, (pyRound m : ℚ)⟩
    | _, _ => none

/-- The cleaning pipeline `load_exercises` applies to a parsed file
(src/app.py lines 116-126): coerce and round, drop broken rows, keep the
0..1440 minute range, sort by `(date, activity)`, dedup keeping last. -/
def normE (rows : List RawERow) : List ERow :=
  dedupLast (fun r => (r.date, r.activity))
    (sortByKeyE ((coerceE rows).filter (fun r => inRangeE r)))

/-- `load_exercises()` (src/app.py lines 106-130). -/
def load_exercises (file : Option RawETable) : List ERow :=
  match file with
  | none => []
  | some t =>
      if "date" ∈ t.cols ∧ "activity" ∈ t.cols ∧ "duration_min" ∈ t.cols then
        normE t.rows
      else []

/-- `save_exercises` (src/app.py lines 133-142): round durations to whole
minutes, sort by `(date, activity)`, write every row with its header. -/
def save_exercises (df : List ERow) : RawETable :=
  ⟨["date", "activity", "duration_min"],
   (sortByKeyE (df.map roundE)).map fun r => ⟨r.date, r.activity, some r.duration⟩⟩

/-- The load-time cleaning pipeline applied directly to an in-memory
collection (the spec's `normalize` for exercises). -/
def normalizeE (df : List ERow) : List ERow :=
  normE (df.map fun r => ⟨some r.date, r.activity, some r.duration⟩)

/-- The errors `merge_uploaded_csv` can raise: the missing-column
`ValueError` of src/app.py line 153, and the two pandas errors of the
label-based assignment `base.loc[up_idx.index, "weight"] = up_idx`
(line 173): a `KeyError` when the list-like indexer holds a label missing
from the index (list-like `.loc` set-item does not enlarge), and the
duplicate-axis reindex `ValueError` when the uploaded dates repeat. -/
inductive MergeError where
  | missingColumns
  | locKeyError
  | locDupReindex
deriving DecidableEq, Repr

/-- The weight range filter of the merge path:
`up[(20 <= up["weight"]) & (up["weight"] <= 300)]` (line 161). -/
def wInRange (r : WRow) : Prop := 20 ≤ r.weight ∧ r.weight ≤ 300

instance (r : WRow) : Decidable (wInRange r) :=
  inferInstanceAs (Decidable (_ ∧ _))

/-- The cleaned upload: coerce and round the uploaded rows, drop broken
rows, keep only plausible weights (lines 156-161). -/
def upClean (up : RawWTable) : List WRow :=
  (coerceW up.rows).filter (fun r => wInRange r)

/-- Does the stored frame carry a row for date `d`? -/
def hasDate (df : List WRow) (d : ℤ) : Prop := ∃ r ∈ df, r.date = d

instance (df : List WRow) (d : ℤ) : Decidable (hasDate df d) :=
  List.decidableBEx _ df

/-- One stored row under the label-based assignment
`base.loc[up_idx.index, "weight"] = up_idx`: a row whose date occurs in
the upload takes the uploaded weight, any other row is untouched. -/
def locUpd (upC : List WRow) (r : WRow) : WRow :=
  match upC.find? (fun u => u.date = r.date) with
  | some u => ⟨r.date, u.weight⟩
  | none => r

/-- The label-based assignment applied to the whole frame, in the case
where every uploaded label exists in the index. -/
def locOverwrite (df upC : List WRow) : List WRow :=
  df.map (locUpd upC)

/-- `merge_uploaded_csv` (src/app.py lines 145-181).  Decoding the bytes
and `pd.read_csv` are abstracted into the already-parsed `RawWTable`.
The required-column check raises first; with a non-empty cleaned upload
the `.loc` set-item raises `KeyError` as soon as one uploaded date is
absent from the stored index, so the new-date insertion of lines 174-177
(kept below for faithfulness) only ever appends nothing. -/
def merge_uploaded_csv (df : List WRow) (up : RawWTable) :
    Except MergeError (List WRow) :=
  if "date" ∈ up.cols ∧ "weight" ∈ up.cols then
    let upC := upClean up
    if upC = [] then .ok (sortByDate df)
    else if ∀ u ∈ upC, hasDate df u.date then
      if (upC.map (·.date)).Nodup then
        let base := locOverwrite df upC
        let newRows := upC.filter (fun u => ¬ hasDate df u.date)
        .ok (sortByDate (base ++ newRows))
      else .error .locDupReindex
    else .error .locKeyError
  else .error .missingColumns

instance {ε α : Type} [DecidableEq ε] [DecidableEq α] :
    DecidableEq (Except ε α) := fun x y => by
  cases x <;> cases y
  case error.error e f =>
    exact if h : e = f then isTrue (by simp [h]) else isFalse (by simp [h])
  case error.ok e a => exact isFalse (by simp)
  case ok.error a e => exact isFalse (by simp)
  case ok.ok a b =>
    exact if h : a = b then isTrue (by simp [h]) else isFalse (by simp [h])

/-- The result record of `compute_stats`; `none` is the Python `None`. -/
structure Stats where
  avg : Option ℚ
  delta : Option ℚ
  min : Option ℚ
  max : Option ℚ
deriving DecidableEq, Repr

/-- `compute_stats` (src/app.py lines 184-203): restrict to the last
`days` days, then mean / last-minus-first / min / max of the weights,
each rounded to 1 decimal. -/
def compute_stats (df : List WRow) (days today : ℤ) : Stats :=
  if df.isEmpty then ⟨none, none, none, none⟩
  else
    let d := df.filter (fun r => today - (days - 1) ≤ r.date)
    match sortByDate d with
    | [] => ⟨none, none, none, none⟩
    | h :: t =>
        let ws := (h :: t).map (·.weight)
        ⟨some (round1 (ws.sum / (ws.length : ℚ))),
         some (round1 (((h :: t).getLast (List.cons_ne_nil h t)).weight - h.weight)),
         some (round1 ((t.map (·.weight)).foldl min h.weight)),
         some (round1 ((t.map (·.weight)).foldl max h.weight))⟩

/-- The label-to-days table of `filter_range` (src/app.py lines 219-229),
including the backward-compatible day-count labels. -/
def days_map (label : String) : Option ℤ :=
  if label = "1週間" then some 7
  else if label = "1ヶ月" then some 30
  else if label = "3ヶ月" then some 90
  else if label = "半年" then some 180
  else if label = "1年" then some 365
  else if label = "30日" then some 30
  else if label = "90日" then some 90
  else if label = "180日" then some 180
  else none

/-- `filter_range` (src/app.py lines 206-235), generic over the date
column accessor because the app applies it to both collections.  The
`days = 0` alternative mirrors the Python truthiness test `if not days`;
no label maps to 0, so it never fires. -/
def filter_range {α : Type} (dateOf : α → ℤ) (df : List α) (label : String)
    (today : ℤ) : List α :=
  if df.isEmpty then df
  else if label = "全期間" then df
  else
    match days_map label with
    | none => df
    | some days =>
        if days = 0 then df
        else df.filter (fun r => today - (days - 1) ≤ dateOf r)

/-- Sorted distinct values, as produced for a pandas groupby key. -/
def sortedKeys {κ : Type} [LinearOrder κ] (l : List κ) : List κ :=
  dedupLast id (l.insertionSort (· ≤ ·))

/-- The daily rollup (src/app.py line 433):
`ex.groupby("date")["duration_min"].sum()` sorted by date, with the sums
rounded to whole minutes (line 434). -/
def daily (ex : List ERow) : List (ℤ × ℤ) :=
  (sortedKeys (ex.map (·.date))).map fun d =>
    (d, pyRound (((ex.filter (fun r => r.date = d)).map (·.duration)).sum))

/-- The date index of the per-activity pivot (lines 674-679):
`pd.date_range(min, max, freq="D")`, one entry per calendar day. -/
def pivDays (ex : List ERow) : List ℤ :=
  match sortedKeys (ex.map (·.date)) with
  | [] => []
  | lo :: ds =>
      let hi := (lo :: ds).getLast (List.cons_ne_nil lo ds)
      (List.range (hi - lo + 1).toNat).map fun i => lo + (i : ℤ)

/-- The activity columns of the pivot (`pivot_table(columns="activity")`). -/
def pivCols (ex : List ERow) : List String := sortedKeys (ex.map (·.activity))

/-- One cell of `pivot_table(index="date", columns="activity",
values="duration_min", aggfunc="sum").reindex(full_days, fill_value=0)`
(lines 676-679).  A `(day, activity)` pair with data sums its durations; a
day with data only for other activities leaves the cell NaN (`none`),
because `pivot_table` is called without `fill_value`; a day with no data
at all takes the row that `reindex` creates and fills with 0. -/
def pivCell (ex : List ERow) (d : ℤ) (a : String) : Option ℤ :=
  if ∃ r ∈ ex, r.date = d ∧ r.activity = a then
    some (pyRound (((ex.filter (fun r => r.date = d ∧ r.activity = a)).map
      (·.duration)).sum))
  else if ∃ r ∈ ex, r.date = d then none
  else some 0

/-- `merge_uploaded_csv` as a transformer of an object store, making the
aliasing discipline of lines 163-181 explicit: `base = df.copy()` puts a
copy of the caller's frame at a fresh reference, the `.loc` set-item
mutates only that copy, and `reset_index(...).sort_values(...)` builds the
returned frame as another fresh object. -/
def mergeHeap (heap : ℕ → List WRow) (dfRef : ℕ) (up : RawWTable) :
    Except MergeError ℕ × (ℕ → List WRow) :=
  if "date" ∈ up.cols ∧ "weight" ∈ up.cols then
    let df := heap dfRef
    let heap1 := Function.update heap (dfRef + 1) df
    let upC := upClean up
    if upC = [] then
      (.ok (dfRef + 2), Function.update heap1 (dfRef + 2) (sortByDate df))
    else if ∀ u ∈ upC, hasDate df u.date then
      if (upC.map (·.date)).Nodup then
        let heap2 := Function.update heap1 (dfRef + 1)
          (locOverwrite df upC ++ upC.filter (fun u => ¬ hasDate df u.date))
        (.ok (dfRef + 2),
         Function.update heap2 (dfRef + 2) (sortByDate (heap2 (dfRef + 1))))
      else (.error .locDupReindex, heap1)
    else (.error .locKeyError, heap1)
  else (.error .missingColumns, heap)

/-- Validity of a raw weight row: both cells coerce. -/
def validW (r : RawWRow) : Prop := r.date.isSome = true ∧ r.weight.isSome = true

instance (r : RawWRow) : Decidable (validW r) :=
  inferInstanceAs (Decidable (_ ∧ _))

/-- Validity of a raw exercise row: both cells coerce and the rounded
duration lies in 0..1440 minutes. -/
def validE (r : RawERow) : Prop :=
  r.date.isSome = true ∧
    match r.duration with
    | some m => 0 ≤ pyRound m ∧ pyRound m ≤ 1440
    | none => False

instance (r : RawERow) : Decidable (validE r) := by
  unfold validE
  cases r.duration <;> exact inferInstanceAs (Decidable (_ ∧ _))

example : round1 (1996/100) = 20 := by with_unfolding_all decide

example : pyRound (5/2) = 2 ∧ pyRound (7/2) = 4 ∧ pyRound (3/2) = 2 := by
  with_unfolding_all decide

example : normalizeW [⟨3, 70⟩, ⟨1, 60⟩, ⟨3, 71⟩] = [⟨1, 60⟩, ⟨3, 71⟩] := by
  with_unfolding_all decide

example :
    merge_uploaded_csv [⟨0, 70⟩]
      ⟨["date", "weight"], [⟨some 0, some (145/2)⟩, ⟨some 1, some 68⟩]⟩ =
      .error .locKeyError := by
  with_unfolding_all decide

example :
    merge_uploaded_csv [⟨0, 70⟩, ⟨1, 69⟩]
      ⟨["date", "weight"], [⟨some 0, some (145/2)⟩]⟩ =
      .ok [⟨0, 145/2⟩, ⟨1, 69⟩] := by
  with_unfolding_all decide

example :
    daily [⟨0, "run", 30⟩, ⟨0, "swim", 45⟩, ⟨1, "run", 20⟩] = [(0, 75), (1, 20)] := by
  with_unfolding_all decide

example :
    pivCell [⟨0, "run", 30⟩, ⟨0, "swim", 45⟩, ⟨1, "run", 20⟩] 1 "swim" = none := by
  with_unfolding_all decide

example :
    pivDays [⟨0, "run", 30⟩, ⟨0, "swim", 45⟩, ⟨1, "run", 20⟩] = [0, 1] ∧
    pivCols [⟨0, "run", 30⟩, ⟨0, "swim", 45⟩, ⟨1, "run", 20⟩] = ["run", "swim"] := by
  with_unfolding_all decide

example :
    compute_stats [⟨-6, 70⟩, ⟨-3, 71⟩, ⟨0, 72⟩] 7 0 =
      ⟨some 71, some 2, some 70, some 72⟩ := by
  with_unfolding_all decide

example : compute_stats [] 7 0 = ⟨none, none, none, none⟩ := by
  with_unfolding_all decide

example :
    filter_range (·.date) ([⟨-40, 70⟩, ⟨0, 72⟩] : List WRow) "1ヶ月" 0 = [⟨0, 72⟩] ∧
    filter_range (·.date) ([⟨-40, 70⟩, ⟨0, 72⟩] : List WRow) "bogus" 0 =
      [⟨-40, 70⟩, ⟨0, 72⟩] := by
  with_unfolding_all decide

/-! ### Generic lemmas about the pandas building blocks -/

theorem filter_orderedInsert_of_neg {α : Type} (r : α → α → Prop) [DecidableRel r]
    (p : α → Bool) (a : α) (l : List α) (ha : p a = false) :
    (l.orderedInsert r a).filter p = l.filter p := by
  induction l with
  | nil => simp [List.orderedInsert, ha]
  | cons b l ih =>
    by_cases h : r a b
    · simp [List.orderedInsert, if_pos h, List.filter_cons, ha]
    · simp only [List.orderedInsert, if_neg h, List.filter_cons, ih]

theorem filter_orderedInsert_of_pos {α : Type} (r : α → α → Prop) [DecidableRel r]
    [IsTrans α r] (p : α → Bool) (a : α) {l : List α} (hl : l.Sorted r)
    (ha : p a = true) :
    (l.orderedInsert r a).filter p = (l.filter p).orderedInsert r a := by
  induction l with
  | nil => simp [List.orderedInsert, ha]
  | cons b l ih =>
    by_cases h : r a b
    · by_cases hpb : p b = true
      · simp [List.filter_cons, ha, hpb, List.orderedInsert, h]
      · have hpb' : p b = false := by simpa using hpb
        cases hfl : l.filter p with
        | nil => simp [List.filter_cons, ha, hpb', hfl, List.orderedInsert, h]
        | cons c cs =>
          have hc : c ∈ l.filter p := hfl ▸ List.mem_cons_self c cs
          have hcl : c ∈ l := List.mem_of_mem_filter hc
          have hrbc : r b c := (List.sorted_cons.mp hl).1 c hcl
          have hrac : r a c := IsTrans.trans a b c h hrbc
          simp [List.filter_cons, ha, hpb', hfl, List.orderedInsert, h, hrac]
    · have hl' := hl.of_cons
      by_cases hpb : p b = true
      · simp [List.filter_cons, hpb, List.orderedInsert, h, ih hl']
      · have hpb' : p b = false := by simpa using hpb
        simp [List.filter_cons, hpb', List.orderedInsert, h, ih hl']

theorem filter_insertionSort {α : Type} (r : α → α → Prop) [DecidableRel r]
    [IsTotal α r] [IsTrans α r] (p : α → Bool) (l : List α) :
    (l.insertionSort r).filter p = (l.filter p).insertionSort r := by
  induction l with
  | nil => rfl
  | cons a l ih =>
    rw [List.insertionSort]
    by_cases hpa : p a = true
    · rw [filter_orderedInsert_of_pos r p a (List.sorted_insertionSort r l) hpa,
        ih, List.filter_cons, if_pos hpa, List.insertionSort]
    · rw [filter_orderedInsert_of_neg r p a _ (by simpa using hpa), ih,
        List.filter_cons, if_neg hpa]

theorem insertionSort_of_forall_rel {α : Type} (r : α → α → Prop) [DecidableRel r]
    (l : List α) (h : ∀ a ∈ l, ∀ b ∈ l, r a b) : l.insertionSort r = l := by
  induction l with
  | nil => rfl
  | cons a l ih =>
    rw [List.insertionSort_cons r
        (fun b hb => h a (List.mem_cons_self a l) b (List.mem_cons_of_mem a hb)),
      ih (fun x hx y hy => h x (List.mem_cons_of_mem a hx) y (List.mem_cons_of_mem a hy))]

theorem dedupLast_filter {α κ : Type} [DecidableEq κ] (key : α → κ) (x : κ)
    (l : List α) :
    (dedupLast key l).filter (fun a => key a = x) =
      ((l.filter (fun a => key a = x)).getLast?).toList := by
  induction l with
  | nil => rfl
  | cons a l ih =>
    rw [dedupLast]
    by_cases hdup : l.any (fun b => key b = key a) = true
    · rw [if_pos hdup]
      by_cases hx : key a = x
      · obtain ⟨b, hb, hkb⟩ := List.any_eq_true.mp hdup
        have hkb' : key b = key a := by simpa using hkb
        have hmem : b ∈ l.filter (fun c => key c = x) :=
          List.mem_filter.mpr ⟨hb, by simp [hkb', hx]⟩
        rw [List.filter_cons, if_pos (by simp [hx]), ih]
        cases hfl : l.filter (fun c => key c = x) with
        | nil => exact absurd (hfl ▸ hmem) (List.not_mem_nil b)
        | cons c cs => rw [List.getLast?_cons_cons]
      · rw [List.filter_cons, if_neg (by simp [hx]), ih]
    · rw [if_neg hdup]
      have hnodup : ∀ b ∈ l, ¬key b = key a := by
        intro b hb
        intro hk
        exact hdup (List.any_eq_true.mpr ⟨b, hb, by simp [hk]⟩)
      by_cases hx : key a = x
      · have hfl : l.filter (fun c => key c = x) = [] := by
          rw [List.filter_eq_nil_iff]
          intro b hb
          simp only [decide_eq_true_eq]
          intro hk
          exact hnodup b hb (hk.trans hx.symm)
        have hfl2 : (dedupLast key l).filter (fun c => key c = x) = [] := by
          rw [ih, hfl]
          rfl
        rw [List.filter_cons, if_pos (by simp [hx]), hfl2,
          List.filter_cons, if_pos (by simp [hx]), hfl]
        rfl
      · rw [List.filter_cons, if_neg (by simp [hx]), ih,
          List.filter_cons, if_neg (by simp [hx])]

theorem foldl_min_mem {α : Type} [LinearOrder α] (a : α) (l : List α) :
    l.foldl min a ∈ a :: l := by
  induction l generalizing a with
  | nil => simp
  | cons b l ih =>
    rw [List.foldl_cons]
    rcases List.mem_cons.mp (ih (min a b)) with hm | hm
    · rcases min_choice a b with h | h
      · rw [hm, h]
        exact List.mem_cons_self a (b :: l)
      · rw [hm, h]
        exact List.mem_cons_of_mem a (List.mem_cons_self b l)
    · exact List.mem_cons_of_mem a (List.mem_cons_of_mem b hm)

theorem foldl_min_le {α : Type} [LinearOrder α] (a : α) (l : List α) :
    ∀ x ∈ a :: l, l.foldl min a ≤ x := by
  induction l generalizing a with
  | nil =>
    intro x hx
    rw [List.mem_singleton] at hx
    simp [hx]
  | cons b l ih =>
    intro x hx
    rw [List.foldl_cons]
    rcases List.mem_cons.mp hx with rfl | hx
    · exact le_trans (ih (min x b) (min x b) (List.mem_cons_self _ l)) (min_le_left x b)
    · rcases List.mem_cons.mp hx with rfl | hx
      · exact le_trans (ih (min a x) (min a x) (List.mem_cons_self _ l)) (min_le_right a x)
      · exact ih (min a b) x (List.mem_cons_of_mem _ hx)

theorem foldl_max_mem {α : Type} [LinearOrder α] (a : α) (l : List α) :
    l.foldl max a ∈ a :: l := by
  induction l generalizing a with
  | nil => simp
  | cons b l ih =>
    rw [List.foldl_cons]
    rcases List.mem_cons.mp (ih (max a b)) with hm | hm
    · rcases max_choice a b with h | h
      · rw [hm, h]
        exact List.mem_cons_self a (b :: l)
      · rw [hm, h]
        exact List.mem_cons_of_mem a (List.mem_cons_self b l)
    · exact List.mem_cons_of_mem a (List.mem_cons_of_mem b hm)

theorem le_foldl_max {α : Type} [LinearOrder α] (a : α) (l : List α) :
    ∀ x ∈ a :: l, x ≤ l.foldl max a := by
  induction l generalizing a with
  | nil =>
    intro x hx
    rw [List.mem_singleton] at hx
    simp [hx]
  | cons b l ih =>
    intro x hx
    rw [List.foldl_cons]
    rcases List.mem_cons.mp hx with rfl | hx
    · exact le_trans (le_max_left x b) (ih (max x b) (max x b) (List.mem_cons_self _ l))
    · rcases List.mem_cons.mp hx with rfl | hx
      · exact le_trans (le_max_right a x) (ih (max a x) (max a x) (List.mem_cons_self _ l))
      · exact ih (max a b) x (List.mem_cons_of_mem _ hx)

/-! ### Round-trip lemmas for the two collections -/

theorem roundW_roundW (r : WRow) : roundW (roundW r) = roundW r := by
  simp [roundW, round1_round1]

theorem roundE_roundE (r : ERow) : roundE (roundE r) = roundE r := by
  simp [roundE, pyRound_intCast]

theorem coerceW_cast (l : List WRow) :
    coerceW (l.map fun r => ⟨some r.date, some r.weight⟩) = l.map roundW := by
  induction l with
  | nil => rfl
  | cons a l ih =>
    simp only [List.map_cons, coerceW, List.filterMap_cons] at ih ⊢
    rw [show (WRow.mk a.date (round1 a.weight)) = roundW a from rfl] at *
    exact congrArg _ ih

theorem coerceE_cast (l : List ERow) :
    coerceE (l.map fun r => ⟨some r.date, r.activity, some r.duration⟩) =
      l.map roundE := by
  induction l with
  | nil => rfl
  | cons a l ih =>
    simp only [List.map_cons, coerceE, List.filterMap_cons] at ih ⊢
    exact congrArg _ ih

theorem sortByDate_map_roundW (l : List WRow) :
    (sortByDate l).map roundW = sortByDate (l.map roundW) :=
  List.map_insertionSort wle wle roundW l (fun _ _ _ _ => Iff.rfl)

theorem sortByKeyE_map_roundE (l : List ERow) :
    (sortByKeyE l).map roundE = sortByKeyE (l.map roundE) :=
  List.map_insertionSort ele ele roundE l (fun _ _ _ _ => Iff.rfl)

theorem sortByDate_idem (l : List WRow) : sortByDate (sortByDate l) = sortByDate l :=
  List.Sorted.insertionSort_eq (List.sorted_insertionSort wle l)

theorem sortByKeyE_idem (l : List ERow) : sortByKeyE (sortByKeyE l) = sortByKeyE l :=
  List.Sorted.insertionSort_eq (List.sorted_insertionSort ele l)

theorem map_roundW_roundW (l : List WRow) : (l.map roundW).map roundW = l.map roundW := by
  rw [List.map_map]
  exact List.map_congr_left (fun a _ => roundW_roundW a)

theorem map_roundE_roundE (l : List ERow) : (l.map roundE).map roundE = l.map roundE := by
  rw [List.map_map]
  exact List.map_congr_left (fun a _ => roundE_roundE a)

theorem filter_sortByKeyE (p : ERow → Bool) (l : List ERow) :
    (sortByKeyE l).filter p = sortByKeyE (l.filter p) :=
  filter_insertionSort ele p l

theorem filter_sortByDate (p : WRow → Bool) (l : List WRow) :
    (sortByDate l).filter p = sortByDate (l.filter p) :=
  filter_insertionSort wle p l

/-- C6: saving a collection and loading it back yields exactly the load-time
normalisation of that collection, `load(save(C)) = normalize(C)`, for the
weight collection and for the exercise collection. -/
theorem load_save_roundtrip :
    (∀ C : List WRow, load_weights (some (save_weights C)) = normalizeW C) ∧
    (∀ C : List ERow, load_exercises (some (save_exercises C)) = normalizeE C) := by
  constructor
  · intro C
    show (if "date" ∈ ["date", "weight"] ∧ "weight" ∈ ["date", "weight"] then
        normW (save_weights C).rows else []) = normalizeW C
    rw [if_pos (by simp)]
    show dedupLast (·.date) (sortByDate (coerceW ((sortByDate (C.map roundW)).map
      fun r => ⟨some r.date, some r.weight⟩))) = normalizeW C
    rw [coerceW_cast, sortByDate_map_roundW, map_roundW_roundW, sortByDate_idem]
    show _ = dedupLast (·.date) (sortByDate (coerceW (C.map
      fun r => ⟨some r.date, some r.weight⟩)))
    rw [coerceW_cast]
  · intro C
    show (if "date" ∈ ["date", "activity", "duration_min"] ∧
        "activity" ∈ ["date", "activity", "duration_min"] ∧
        "duration_min" ∈ ["date", "activity", "duration_min"] then
        normE (save_exercises C).rows else []) = normalizeE C
    rw [if_pos (by simp)]
    show dedupLast (fun r => (r.date, r.activity))
      (sortByKeyE ((coerceE ((sortByKeyE (C.map roundE)).map
        fun r => ⟨some r.date, r.activity, some r.duration⟩)).filter
          (fun r => inRangeE r))) = normalizeE C
    rw [coerceE_cast, sortByKeyE_map_roundE, map_roundE_roundE,
      filter_sortByKeyE, sortByKeyE_idem]
    show _ = dedupLast (fun r => (r.date, r.activity))
      (sortByKeyE ((coerceE (C.map
        fun r => ⟨some r.date, r.activity, some r.duration⟩)).filter
          (fun r => inRangeE r)))
    rw [coerceE_cast]

/-! ### Keep-last deduplication (claim C7) -/

theorem sortByDate_of_const_key (l : List WRow) (x : ℤ)
    (h : ∀ r ∈ l, r.date = x) : sortByDate l = l :=
  insertionSort_of_forall_rel wle l fun a ha b hb =>
    le_of_eq ((h a ha).trans (h b hb).symm)

theorem sortByKeyE_of_const_key (l : List ERow) (x : ℤ) (a : String)
    (h : ∀ r ∈ l, r.date = x ∧ r.activity = a) : sortByKeyE l = l :=
  insertionSort_of_forall_rel ele l fun c hc d hd =>
    Or.inr ⟨(h c hc).1.trans (h d hd).1.symm,
      le_of_eq ((h c hc).2.trans (h d hd).2.symm)⟩

/-! ### Soft-failing loads (claim C8) -/

theorem filterMap_filter_of_none {α β : Type} (f : α → Option β) (q : α → Bool)
    (h : ∀ r, q r = false → f r = none) (l : List α) :
    (l.filter q).filterMap f = l.filterMap f := by
  induction l with
  | nil => rfl
  | cons a l ih =>
    by_cases hq : q a = true
    · rw [List.filter_cons, if_pos hq, List.filterMap_cons, List.filterMap_cons]
      cases f a <;> simp [ih]
    · have hq' : q a = false := by simpa using hq
      rw [List.filter_cons, if_neg (by simp [hq']), List.filterMap_cons, h a hq', ih]

theorem filter_filterMap_filter {α β : Type} (f : α → Option β) (q : α → Bool)
    (p : β → Bool) (h : ∀ r, q r = false → ∀ b, f r = some b → p b = false)
    (l : List α) :
    ((l.filter q).filterMap f).filter p = (l.filterMap f).filter p := by
  induction l with
  | nil => rfl
  | cons a l ih =>
    by_cases hq : q a = true
    · rw [List.filter_cons, if_pos hq, List.filterMap_cons, List.filterMap_cons]
      cases hfa : f a with
      | none => exact ih
      | some b => rw [List.filter_cons, List.filter_cons, ih]
    · have hq' : q a = false := by simpa using hq
      rw [List.filter_cons, if_neg (by simp [hq']), List.filterMap_cons]
      cases hfa : f a with
      | none => exact ih
      | some b => rw [List.filter_cons, if_neg (by simp [h a hq' b hfa]), ih]

theorem coerceW_filter_valid (rows : List RawWRow) :
    coerceW (rows.filter (fun r => validW r)) = coerceW rows := by
  unfold coerceW
  refine filterMap_filter_of_none _ _ (fun r hr => ?_) rows
  cases hd : r.date with
  | none => rfl
  | some d =>
    cases hw : r.weight with
    | none => rfl
    | some w =>
      exfalso
      simp [validW, hd, hw] at hr

theorem normE_filter_valid (rows : List RawERow) :
    normE (rows.filter (fun r => validE r)) = normE rows := by
  unfold normE
  congr 1
  congr 1
  refine filter_filterMap_filter _ _ _ (fun r hr b hb => ?_) rows
  cases hd : r.date with
  | none => rw [hd] at hb; exact absurd hb (by simp [coerceE])
  | some d =>
    cases hm : r.duration with
    | none => rw [hd, hm] at hb; exact absurd hb (by simp [coerceE])
    | some m =>
      rw [hd, hm] at hb
      have hb' : b = ⟨d, r.activity, (pyRound m : ℚ)⟩ := by
        simpa using hb.symm
      have hout : ¬(0 ≤ pyRound m ∧ pyRound m ≤ 1440) := by
        intro hc
        have : validE r := by
          unfold validE
          rw [hd, hm]
          exact ⟨rfl, hc⟩
        simp [this] at hr
      subst hb'
      simp only [decide_eq_false_iff_not]
      intro hc
      rcases hc with ⟨h1, h2⟩
      have h1' : (0 : ℚ) ≤ ((pyRound m : ℤ) : ℚ) := h1
      have h2' : ((pyRound m : ℤ) : ℚ) ≤ 1440 := h2
      refine hout ⟨?_, ?_⟩
      · exact_mod_cast h1'
      · exact_mod_cast h2'

/-- C8: `load_weights` and `load_exercises` never raise: a missing or
unreadable file and a file lacking a required column both yield the empty
(correctly shaped) collection, and deleting the row-level invalid rows
(unparsable date, unparsable number, out-of-range duration) from the raw
file leaves the loaded result unchanged — the pipeline drops exactly those
rows silently. -/
theorem load_never_raises :
    (load_weights none = []) ∧
    (∀ t : RawWTable, ¬("date" ∈ t.cols ∧ "weight" ∈ t.cols) →
      load_weights (some t) = []) ∧
    (∀ t : RawWTable,
      load_weights (some t) =
        load_weights (some ⟨t.cols, t.rows.filter (fun r => validW r)⟩)) ∧
    (load_exercises none = []) ∧
    (∀ t : RawETable,
      ¬("date" ∈ t.cols ∧ "activity" ∈ t.cols ∧ "duration_min" ∈ t.cols) →
      load_exercises (some t) = []) ∧
    (∀ t : RawETable,
      load_exercises (some t) =
        load_exercises (some ⟨t.cols, t.rows.filter (fun r => validE r)⟩)) := by
  refine ⟨rfl, ?_, ?_, rfl, ?_, ?_⟩
  · intro t h
    simp only [load_weights]
    rw [if_neg h]
  · intro t
    simp only [load_weights]
    by_cases h : "date" ∈ t.cols ∧ "weight" ∈ t.cols
    · rw [if_pos h, if_pos h]
      unfold normW
      rw [coerceW_filter_valid]
    · rw [if_neg h, if_neg h]
  · intro t h
    simp only [load_exercises]
    rw [if_neg h]
  · intro t
    simp only [load_exercises]
    by_cases h : "date" ∈ t.cols ∧ "activity" ∈ t.cols ∧ "duration_min" ∈ t.cols
    · rw [if_pos h, if_pos h, normE_filter_valid]
    · rw [if_neg h, if_neg h]

/-! ### Windowed statistics (claim C4) -/

theorem sorted_head_min (h : WRow) (t : List WRow) (hs : (h :: t).Sorted wle) :
    ∀ x ∈ h :: t, h.date ≤ x.date := by
  intro x hx
  rcases List.mem_cons.mp hx with rfl | hx
  · exact le_refl _
  · exact (List.sorted_cons.mp hs).1 x hx

theorem sorted_getLast_max (h : WRow) (t : List WRow) (hs : (h :: t).Sorted wle) :
    ∀ x ∈ h :: t, x.date ≤ ((h :: t).getLast (List.cons_ne_nil h t)).date := by
  induction t generalizing h with
  | nil =>
    intro x hx
    rcases List.mem_cons.mp hx with rfl | hx
    · exact le_refl _
    · exact absurd hx (List.not_mem_nil x)
  | cons b t ih =>
    intro x hx
    rw [List.getLast_cons (List.cons_ne_nil b t)]
    rcases List.mem_cons.mp hx with rfl | hx
    · exact le_trans ((List.sorted_cons.mp hs).1 b (List.mem_cons_self b t))
        (ih b hs.of_cons b (List.mem_cons_self b t))
    · exact ih b hs.of_cons x hx

/-- C4: `compute_stats` restricts to the entries dated within the last
`days` days; on an empty restriction (in particular an empty collection)
every field is `None`; otherwise `avg` is the mean of the restricted
weights rounded to 1 decimal, `delta` is last-by-date minus first-by-date
(not max minus min) rounded to 1 decimal, and `min`/`max` are the extrema
rounded to 1 decimal. -/
theorem compute_stats_spec (df : List WRow) (days today : ℤ) (_hdays : 1 ≤ days) :
    (df.filter (fun r => today - (days - 1) ≤ r.date) = [] →
      compute_stats df days today = ⟨none, none, none, none⟩) ∧
    (∀ R, R = df.filter (fun r => today - (days - 1) ≤ r.date) → R ≠ [] →
      ∃ f l m M, f ∈ R ∧ l ∈ R ∧ (∀ x ∈ R, f.date ≤ x.date) ∧
        (∀ x ∈ R, x.date ≤ l.date) ∧
        m ∈ R.map (·.weight) ∧ (∀ w ∈ R.map (·.weight), m ≤ w) ∧
        M ∈ R.map (·.weight) ∧ (∀ w ∈ R.map (·.weight), w ≤ M) ∧
        compute_stats df days today =
          ⟨some (round1 ((R.map (·.weight)).sum / (R.length : ℚ))),
           some (round1 (l.weight - f.weight)),
           some (round1 m), some (round1 M)⟩) := by
  constructor
  · intro hR
    by_cases hdf : df.isEmpty = true
    · simp [compute_stats, hdf]
    · simp only [compute_stats, if_neg hdf]
      rw [hR]
      rfl
  · intro R hR hRne
    have hdfne : df ≠ [] := by
      intro h0
      apply hRne
      rw [hR, h0]
      rfl
    have hdf : ¬(df.isEmpty = true) := by simp [List.isEmpty_iff, hdfne]
    cases hsort : sortByDate R with
    | nil =>
      exfalso
      apply hRne
      have hlen := List.length_insertionSort wle R
      rw [show List.insertionSort wle R = sortByDate R from rfl, hsort] at hlen
      exact List.length_eq_zero.mp hlen.symm
    | cons h t =>
      have hperm : (h :: t).Perm R := by
        have := List.perm_insertionSort wle R
        rw [show List.insertionSort wle R = sortByDate R from rfl, hsort] at this
        exact this
      have hsorted : (h :: t).Sorted wle := by
        have := List.sorted_insertionSort wle R
        rw [show List.insertionSort wle R = sortByDate R from rfl, hsort] at this
        exact this
      have hmem : ∀ x, x ∈ h :: t ↔ x ∈ R := fun x => hperm.mem_iff
      have hmemw : ∀ w, w ∈ h.weight :: t.map (·.weight) ↔ w ∈ R.map (·.weight) :=
        fun w => by
          rw [← List.map_cons]
          exact (hperm.map (·.weight)).mem_iff
      refine ⟨h, (h :: t).getLast (List.cons_ne_nil h t),
        (t.map (·.weight)).foldl min h.weight,
        (t.map (·.weight)).foldl max h.weight,
        (hmem h).mp (List.mem_cons_self h t),
        (hmem _).mp (List.getLast_mem (List.cons_ne_nil h t)), ?_, ?_, ?_, ?_, ?_, ?_, ?_⟩
      · intro x hx
        exact sorted_head_min h t hsorted x ((hmem x).mpr hx)
      · intro x hx
        exact sorted_getLast_max h t hsorted x ((hmem x).mpr hx)
      · exact (hmemw _).mp (foldl_min_mem h.weight (t.map (·.weight)))
      · intro w hw
        exact foldl_min_le h.weight (t.map (·.weight)) w ((hmemw w).mpr hw)
      · exact (hmemw _).mp (foldl_max_mem h.weight (t.map (·.weight)))
      · intro w hw
        exact le_foldl_max h.weight (t.map (·.weight)) w ((hmemw w).mpr hw)
      · have hsum : ((h :: t).map (·.weight)).sum = (R.map (·.weight)).sum :=
          (hperm.map (·.weight)).sum_eq
        have hlenm : ((h :: t).map (·.weight)).length = (R.map (·.weight)).length :=
          (hperm.map (·.weight)).length_eq
        rw [show R.length = (R.map (·.weight)).length from
            (List.length_map R (·.weight)).symm,
          ← hsum, ← hlenm]
        simp only [compute_stats, if_neg hdf]
        rw [← hR, hsort]

/-! ### Range filtering (claim C5) -/

theorem days_map_ne_zero (label : String) (n : ℤ) (h : days_map label = some n) :
    ¬n = 0 := by
  unfold days_map at h
  split_ifs at h <;> simp_all <;> omega

/-- C5: `filter_range` is the identity for the all-time label and for any
unrecognised label (a silent fallback, never an error), and for every
recognised label with day count `n` it keeps exactly the rows dated within
the last `n` days; the label table is week 7, month 30, 3-month 90,
half-year 180, year 365, plus the backward-compatible day-count labels. -/
theorem filter_range_spec {α : Type} (dateOf : α → ℤ) (df : List α) (today : ℤ) :
    (filter_range dateOf df "全期間" today = df) ∧
    (∀ label, days_map label = none → filter_range dateOf df label today = df) ∧
    (∀ label n, days_map label = some n →
      filter_range dateOf df label today =
        df.filter (fun r => today - (n - 1) ≤ dateOf r)) ∧
    (days_map "1週間" = some 7 ∧ days_map "1ヶ月" = some 30 ∧
      days_map "3ヶ月" = some 90 ∧ days_map "半年" = some 180 ∧
      days_map "1年" = some 365 ∧ days_map "30日" = some 30 ∧
      days_map "90日" = some 90 ∧ days_map "180日" = some 180 ∧
      days_map "全期間" = none) := by
  refine ⟨?_, ?_, ?_, ?_⟩
  · by_cases hemp : df.isEmpty = true
    · simp [filter_range, hemp]
    · simp [filter_range, hemp]
  · intro label hnone
    by_cases hemp : df.isEmpty = true
    · simp [filter_range, hemp]
    · by_cases hlab : label = "全期間"
      · simp [filter_range, hemp, hlab]
      · simp [filter_range, hemp, hlab, hnone]
  · intro label n hsome
    by_cases hemp : df.isEmpty = true
    · rw [List.isEmpty_iff.mp hemp]
      simp [filter_range]
    · have hlab : ¬label = "全期間" := by
        intro e
        rw [e] at hsome
        rw [show days_map "全期間" = none from rfl] at hsome
        exact Option.noConfusion hsome
      simp [filter_range, hemp, hlab, hsome, days_map_ne_zero label n hsome]
  · refine ⟨rfl, rfl, rfl, rfl, rfl, rfl, rfl, rfl, rfl⟩

/-! ### The merge engine (claims C1, C2, C3, C10) -/

/-- C10: `merge_uploaded_csv` never mutates the collection passed to it:
the store after the call (whether it returns or raises) still maps the
caller's reference to exactly the rows it held before, because the
function works on `df.copy()` and all in-place writes target the copy. -/
theorem merge_does_not_mutate_existing (heap : ℕ → List WRow) (dfRef : ℕ)
    (up : RawWTable) : (mergeHeap heap dfRef up).2 dfRef = heap dfRef := by
  have h1 : dfRef ≠ dfRef + 1 := by omega
  have h2 : dfRef ≠ dfRef + 2 := by omega
  simp only [mergeHeap]
  split_ifs <;>
    simp [Function.update_noteq h1, Function.update_noteq h2]

/-- C1: the spec's own merge example — stored `{day 0: 70.0}`, upload
`{day 0: 72.5, day 1: 68.0}` — does not return the merged collection: the
`.loc` label assignment raises `KeyError` because day 1 is absent from the
stored index, so the claimed insert of new dates never happens. -/
theorem merge_spec_example_raises :
    merge_uploaded_csv [⟨0, 70⟩]
      ⟨["date", "weight"], [⟨some 0, some (145/2)⟩, ⟨some 1, some 68⟩]⟩ =
      .error .locKeyError := by
  with_unfolding_all decide

/-- C2: the missing-column `ValueError` is raised exactly when a required
column is absent (and the operation never persists, so the stored
collection is untouched by construction) — but it is not the only hard
error the merge surfaces: a well-formed upload holding a date absent from
storage raises a `KeyError` out of the `.loc` label assignment. -/
theorem merge_validation_error_iff :
    (∀ (df : List WRow) (up : RawWTable),
      merge_uploaded_csv df up = .error .missingColumns ↔
        ¬("date" ∈ up.cols ∧ "weight" ∈ up.cols)) ∧
    (merge_uploaded_csv [⟨0, 70⟩] ⟨["date", "weight"], [⟨some 1, some 68⟩]⟩ =
        .error .locKeyError ∧
      MergeError.locKeyError ≠ MergeError.missingColumns) := by
  constructor
  · intro df up
    constructor
    · intro h hcols
      simp only [merge_uploaded_csv, if_pos hcols] at h
      by_cases h1 : upClean up = []
      · rw [if_pos h1] at h
        simp at h
      · rw [if_neg h1] at h
        by_cases h2 : ∀ u ∈ upClean up, hasDate df u.date
        · rw [if_pos h2] at h
          by_cases h3 : ((upClean up).map (·.date)).Nodup
          · rw [if_pos h3] at h
            simp at h
          · rw [if_neg h3] at h
            simp at h
        · rw [if_neg h2] at h
          simp at h
    · intro hcols
      simp only [merge_uploaded_csv, if_neg hcols]
  · exact ⟨by with_unfolding_all decide, by decide⟩

theorem locUpd_date (upC : List WRow) (r : WRow) : (locUpd upC r).date = r.date := by
  unfold locUpd
  split <;> rfl

theorem locUpd_eq_self (upC : List WRow) (r : WRow)
    (h : ∀ u ∈ upC, u.date ≠ r.date) : locUpd upC r = r := by
  unfold locUpd
  rw [List.find?_eq_none.mpr (fun u hu => by simp [h u hu])]

/-- C3: an uploaded row whose (1-decimal rounded) weight falls outside
20..300 is silently excluded: when every uploaded row for a date is out of
range, a successful merge leaves the rows stored for that date exactly as
they were; when every uploaded row is out of range the merge succeeds
outright (no error) returning the stored rows sorted; and a row whose
rounded weight is exactly 20 or exactly 300 passes the range filter. -/
theorem merge_range_filter_spec :
    (∀ (df : List WRow) (up : RawWTable) (d : ℤ),
      (∀ u ∈ coerceW up.rows, u.date = d → ¬wInRange u) →
      ∀ m, merge_uploaded_csv df up = .ok m →
        m.filter (fun r => r.date = d) = df.filter (fun r => r.date = d)) ∧
    (∀ (df : List WRow) (up : RawWTable),
      ("date" ∈ up.cols ∧ "weight" ∈ up.cols) →
      (∀ u ∈ coerceW up.rows, ¬wInRange u) →
      merge_uploaded_csv df up = .ok (sortByDate df)) ∧
    (∀ (d : ℤ) (w : ℚ) (rest : List RawWRow),
      round1 w = 20 ∨ round1 w = 300 →
      ⟨d, round1 w⟩ ∈ upClean ⟨["date", "weight"], ⟨some d, some w⟩ :: rest⟩) := by
  refine ⟨?_, ?_, ?_⟩
  · intro df up d hout m hm
    simp only [merge_uploaded_csv] at hm
    by_cases hcols : "date" ∈ up.cols ∧ "weight" ∈ up.cols
    · rw [if_pos hcols] at hm
      have hupd : ∀ u ∈ upClean up, u.date ≠ d := by
        intro u hu he
        have h1 : u ∈ coerceW up.rows := List.mem_of_mem_filter hu
        have h2 : wInRange u := by
          have := (List.mem_filter.mp hu).2
          simpa using this
        exact hout u h1 he h2
      by_cases h1 : upClean up = []
      · rw [if_pos h1] at hm
        injection hm with hm
        rw [← hm, filter_sortByDate]
        exact sortByDate_of_const_key _ d (fun r hr => by
          have := (List.mem_filter.mp hr).2
          simpa using this)
      · rw [if_neg h1] at hm
        by_cases h2 : ∀ u ∈ upClean up, hasDate df u.date
        · rw [if_pos h2] at hm
          by_cases h3 : ((upClean up).map (·.date)).Nodup
          · rw [if_pos h3] at hm
            injection hm with hm
            rw [← hm, filter_sortByDate,
              sortByDate_of_const_key _ d (fun r hr => by
                have := (List.mem_filter.mp hr).2
                simpa using this),
              List.filter_append]
            have hnew : ((upClean up).filter (fun u => ¬hasDate df u.date)).filter
                (fun r => r.date = d) = [] := by
              rw [List.filter_eq_nil_iff]
              intro u hu
              have := hupd u (List.mem_of_mem_filter hu)
              simp [this]
            rw [hnew, List.append_nil]
            unfold locOverwrite
            rw [List.filter_map (locUpd (upClean up)) df,
              List.filter_congr (fun r _ => by
                show decide ((locUpd (upClean up) r).date = d) = decide (r.date = d)
                rw [locUpd_date])]
            have hid : ∀ r ∈ df.filter (fun r => r.date = d),
                locUpd (upClean up) r = r := by
              intro r hr
              refine locUpd_eq_self _ _ (fun u hu => ?_)
              have hrd : r.date = d := by
                have := (List.mem_filter.mp hr).2
                simpa using this
              rw [hrd]
              exact hupd u hu
            rw [List.map_congr_left hid]
            simp
          · rw [if_neg h3] at hm
            simp at hm
        · rw [if_neg h2] at hm
          simp at hm
    · rw [if_neg hcols] at hm
      simp at hm
  · intro df up hcols hall
    have h1 : upClean up = [] := by
      rw [show upClean up = (coerceW up.rows).filter (fun r => wInRange r) from rfl,
        List.filter_eq_nil_iff]
      intro u hu
      simp [hall u hu]
    simp only [merge_uploaded_csv]
    rw [if_pos hcols, h1, if_pos rfl]
  · intro d w rest hw
    show ⟨d, round1 w⟩ ∈ (coerceW (⟨some d, some w⟩ :: rest)).filter (fun r => wInRange r)
    refine List.mem_filter.mpr ⟨?_, ?_⟩
    · rw [show coerceW (⟨some d, some w⟩ :: rest) =
          ⟨d, round1 w⟩ :: coerceW rest from rfl]
      exact List.mem_cons_self _ _
    · simp only [decide_eq_true_eq]
      rcases hw with h | h <;> rw [show wInRange ⟨d, round1 w⟩ =
          (20 ≤ round1 w ∧ round1 w ≤ 300) from rfl, h] <;> norm_num

/-! ### Exercise rollups (claim C9) -/

/-- C9: on the filtered exercises `[(day 0, run, 30), (day 0, swim, 45),
(day 1, run, 20)]` the daily rollup correctly sums same-day activities
(day 0 gives 75) and the pivot's date index is the gap-free day range with
one column per activity — but the `(day 1, swim)` cell, a day present in
the data with the other activity missing, is NaN (`none`), not the claimed
0: `pivot_table` is called without `fill_value` and `reindex(...,
fill_value=0)` only fills days that are absent altogether. -/
theorem exercise_rollup_example :
    daily [⟨0, "run", 30⟩, ⟨0, "swim", 45⟩, ⟨1, "run", 20⟩] = [(0, 75), (1, 20)] ∧
    pivDays [⟨0, "run", 30⟩, ⟨0, "swim", 45⟩, ⟨1, "run", 20⟩] = [0, 1] ∧
    pivCols [⟨0, "run", 30⟩, ⟨0, "swim", 45⟩, ⟨1, "run", 20⟩] = ["run", "swim"] ∧
    pivCell [⟨0, "run", 30⟩, ⟨0, "swim", 45⟩, ⟨1, "run", 20⟩] 1 "run" = some 20 ∧
    pivCell [⟨0, "run", 30⟩, ⟨0, "swim", 45⟩, ⟨1, "run", 20⟩] 1 "swim" = none ∧
    pivCell [⟨0, "run", 30⟩, ⟨0, "swim", 45⟩, ⟨1, "run", 20⟩] 1 "swim" ≠ some 0 := by
  with_unfolding_all decide

/-! ### Concrete witnesses -/

/-- Witness for C4 at the spec's stats scenario: collection
`[(today-6, 70), (today-3, 71), (today, 72)]` with a 7-day window. -/
theorem compute_stats_spec_witness :
    (List.filter (fun r => (0 : ℤ) - (7 - 1) ≤ r.date)
        ([⟨-6, 70⟩, ⟨-3, 71⟩, ⟨0, 72⟩] : List WRow) = [] →
      compute_stats [⟨-6, 70⟩, ⟨-3, 71⟩, ⟨0, 72⟩] 7 0 = ⟨none, none, none, none⟩) ∧
    (∀ R, R = List.filter (fun r => (0 : ℤ) - (7 - 1) ≤ r.date)
        ([⟨-6, 70⟩, ⟨-3, 71⟩, ⟨0, 72⟩] : List WRow) → R ≠ [] →
      ∃ f l m M, f ∈ R ∧ l ∈ R ∧ (∀ x ∈ R, f.date ≤ x.date) ∧
        (∀ x ∈ R, x.date ≤ l.date) ∧
        m ∈ R.map (·.weight) ∧ (∀ w ∈ R.map (·.weight), m ≤ w) ∧
        M ∈ R.map (·.weight) ∧ (∀ w ∈ R.map (·.weight), w ≤ M) ∧
        compute_stats [⟨-6, 70⟩, ⟨-3, 71⟩, ⟨0, 72⟩] 7 0 =
          ⟨some (round1 ((R.map (·.weight)).sum / (R.length : ℚ))),
           some (round1 (l.weight - f.weight)),
           some (round1 m), some (round1 M)⟩) :=
  compute_stats_spec [⟨-6, 70⟩, ⟨-3, 71⟩, ⟨0, 72⟩] 7 0 (by decide)

/-- Witness for C3: an upload whose only row for day 0 rounds to 310 is
dropped, leaving day 0 stored as it was, the merge succeeding; and weight
exactly 20 passes the filter. -/
theorem merge_range_filter_witness :
    (List.filter (fun r => r.date = 0) ([⟨0, 70⟩] : List WRow) =
      List.filter (fun r => r.date = 0) ([⟨0, 70⟩] : List WRow)) ∧
    (merge_uploaded_csv [⟨0, 70⟩] ⟨["date", "weight"], [⟨some 0, some 310⟩]⟩ =
      .ok (sortByDate [⟨0, 70⟩])) ∧
    ⟨3, round1 20⟩ ∈ upClean ⟨["date", "weight"], [⟨some 3, some 20⟩]⟩ :=
  ⟨merge_range_filter_spec.1 [⟨0, 70⟩] ⟨["date", "weight"], [⟨some 0, some 310⟩]⟩ 0
      (by with_unfolding_all decide) [⟨0, 70⟩] (by with_unfolding_all decide),
   merge_range_filter_spec.2.1 [⟨0, 70⟩] ⟨["date", "weight"], [⟨some 0, some 310⟩]⟩
      (by decide) (by with_unfolding_all decide),
   merge_range_filter_spec.2.2 3 20 [] (Or.inl (by with_unfolding_all decide))⟩

/-- Witness for C5: the one-month label keeps exactly the last 30 days. -/
theorem filter_range_spec_witness :
    filter_range (fun n : ℤ => n) [-40, 0] "1ヶ月" 0 =
      List.filter (fun r => (0 : ℤ) - (30 - 1) ≤ r) [-40, 0] :=
  (filter_range_spec (fun n : ℤ => n) [-40, 0] 0).2.2.1 "1ヶ月" 30 rfl

/-- Witness for C8: a weights file missing the weight column, an exercise
file missing columns, and a weights file whose only row has an unparsable
date. -/
theorem load_never_raises_witness :
    load_weights (some ⟨["date"], [⟨some 0, some 70⟩]⟩) = [] ∧
    load_exercises (some ⟨["date", "activity"], []⟩) = [] ∧
    load_weights (some ⟨["date", "weight"], [⟨none, some 70⟩]⟩) =
      load_weights (some ⟨["date", "weight"],
        List.filter (fun r => validW r) [⟨none, some 70⟩]⟩) :=
  ⟨load_never_raises.2.1 ⟨["date"], [⟨some 0, some 70⟩]⟩ (by decide),
   load_never_raises.2.2.2.2.1 ⟨["date", "activity"], []⟩ (by decide),
   load_never_raises.2.2.1 ⟨["date", "weight"], [⟨none, some 70⟩]⟩⟩

end WeightApp
